import Mathlib

/-!
Verification development for the stats_alloc_map repository: an instrumenting
global-allocator middleware.  The Rust sources embedded here are
src/stats_alloc_map/src/stats.rs (counters, address table, snapshot) and
src/stats_alloc_map/src/allocator_vec.rs (the raw-alloc vector SpecialVec).

Machine integers (usize, isize) are embedded as Nat bit patterns reduced
modulo 2 ^ 64; the isize counter bytes_reallocated is stored as its
two is complement bit pattern.  Pointers returned by the underlying OS
allocator are inputs of the model (an oracle carried by each event), since
the OS allocator is outside the repository.
-/

namespace StatsAllocMap

/-- Number of values of a 64-bit machine word: usize and isize arithmetic in
the source wraps modulo this constant. -/
def usizeW : Nat := 2 ^ 64

/-- Interpretation of a usize bit pattern as the value of an isize with the
same bits (two is complement). -/
def isizeVal (n : Nat) : Int :=
  if n < 2 ^ 63 then (n : Int) else (n : Int) - usizeW

/-! ## allocator_vec.rs : RawVec and SpecialVec

RawVec.grow and SpecialVec.push take the pointer returned by the underlying
OS allocator as an explicit argument; a null return (0) makes grow invoke
handle_alloc_error, which aborts the process and is modelled as none.
The element type of every vector instantiated by the program has non-zero
size, so the zero-sized-type branches of the source are not taken. -/

/-- Embedding of struct RawVec of allocator_vec.rs for a non-zero-sized
element type: a buffer pointer and a capacity.  A fresh RawVec has a
dangling pointer (any fixed non-null value serves) and capacity 0. -/
structure RawVec where
  ptr : Nat
  cap : Nat
deriving Repr, DecidableEq

/-- Embedding of RawVec.new for a non-zero-sized element type. -/
def RawVec.new : RawVec := { ptr := 1, cap := 0 }

/-- Embedding of RawVec.grow.  osRet is the pointer returned by the OS
alloc (when cap = 0) or realloc (otherwise); if it is null the source calls
handle_alloc_error, which never returns (modelled as none). -/
def RawVec.grow (self : RawVec) (osRet : Nat) : Option RawVec :=
  if self.cap = 0 then
    if osRet = 0 then none else some { ptr := osRet, cap := 1 }
  else
    let newCap := 2 * self.cap
    if osRet = 0 then none else some { ptr := osRet, cap := newCap }

/-- Embedding of struct SpecialVec: a RawVec buffer plus the sequence of
stored elements (the source stores len and the len elements behind ptr; the
list holds exactly those elements, so len = data.length). -/
structure SpecialVec (α : Type) where
  buf : RawVec
  data : List α
deriving Repr, DecidableEq

/-- Embedding of SpecialVec.new. -/
def SpecialVec.new {α : Type} : SpecialVec α := { buf := RawVec.new, data := [] }

/-- Embedding of SpecialVec.cap. -/
def SpecialVec.cap {α : Type} (v : SpecialVec α) : Nat := v.buf.cap

/-- Embedding of SpecialVec.push.  When the vector is full the buffer grows
first (osRet is the OS pointer used by that growth); a failed growth aborts
(none).  Otherwise the element is written at index len and len increases. -/
def SpecialVec.push {α : Type} (v : SpecialVec α) (elem : α) (osRet : Nat) :
    Option (SpecialVec α) :=
  if v.data.length = v.buf.cap then
    match v.buf.grow osRet with
    | none => none
    | some buf1 => some { buf := buf1, data := v.data ++ [elem] }
  else
    some { buf := v.buf, data := v.data ++ [elem] }

/-- Embedding of SpecialVec.pop: removes and returns the last element. -/
def SpecialVec.pop {α : Type} (v : SpecialVec α) : Option α × SpecialVec α :=
  match v.data.getLast? with
  | none => (none, v)
  | some x => (some x, { buf := v.buf, data := v.data.dropLast })

/-! ## stats.rs : the Address Table and the counter block

The two global singletons VECTOR_ALLOCATIONS and STACK_ALLOCS start as None
and are created on the first call of allocate_into_vector.  For the event
level state machine the two RAVs are abstracted to their element sequences;
their capacities and the out-of-memory behaviour of their internal pushes
are treated separately through SpecialVec above (executions in which an
internal push aborts the process end the trace, so the machine describes
the non-aborting executions). -/

/-- A cell of VECTOR_ALLOCATIONS: Option of (address, size). -/
abbrev Slot := Option (Nat × Nat)

/-- The global mutable state of stats.rs: the six counters of StatsAlloc
(usize patterns, with bytes_reallocated the bit pattern of an isize) and
the two lazily initialised singletons. -/
structure GState where
  allocations : Nat
  deallocations : Nat
  reallocations : Nat
  bytes_allocated : Nat
  bytes_deallocated : Nat
  bytes_reallocated : Nat
  vector_allocations : Option (List Slot)
  stack_allocs : Option (List Nat)
deriving Repr, DecidableEq

/-- The state at process start: INSTRUMENTED_SYSTEM has all counters zero
and both singletons are None. -/
def GState.init : GState :=
  { allocations := 0, deallocations := 0, reallocations := 0
    bytes_allocated := 0, bytes_deallocated := 0, bytes_reallocated := 0
    vector_allocations := none, stack_allocs := none }

/-- Embedding of allocate_into_vector of stats.rs: initialise the singletons
when absent, then either pop the last free index from STACK_ALLOCS and
overwrite that slot, or, when the stack is empty, append a new slot.
SpecialVec.pop removes the last element, so the stack top is the list end;
the slot overwrite is in bounds in every reachable state (the free-stack
invariant proved below). -/
def allocate_into_vector (size ptr : Nat) (s : GState) : GState :=
  let slots := s.vector_allocations.getD []
  let stack := s.stack_allocs.getD []
  match stack.getLast? with
  | some pos =>
      { s with vector_allocations := some (slots.set pos (some (ptr, size)))
               stack_allocs := some stack.dropLast }
  | none =>
      { s with vector_allocations := some (slots ++ [some (ptr, size)])
               stack_allocs := some stack }

/-- Embedding of the scan loop of delete_pointer: walk the slots in index
order; at the first non-empty slot whose address equals ptr, take the slot
(leaving None) and return the index, the recorded size and the new slot
sequence.  When no slot matches, return none. -/
def delete_pointer_list (ptr : Nat) : List Slot → Option (Nat × Nat × List Slot)
  | [] => none
  | some (p, sz) :: rest =>
      if p = ptr then some (0, sz, none :: rest)
      else
        match delete_pointer_list ptr rest with
        | none => none
        | some (i, s2, l) => some (i + 1, s2, some (p, sz) :: l)
  | none :: rest =>
      match delete_pointer_list ptr rest with
      | none => none
      | some (i, s2, l) => some (i + 1, s2, none :: l)

/-- Embedding of delete_pointer of stats.rs: when the table singleton is
absent or no slot matches, return None leaving the state unchanged;
otherwise empty the matching slot, push its index onto STACK_ALLOCS and
return the recorded size. -/
def delete_pointer (ptr : Nat) (s : GState) : Option Nat × GState :=
  match s.vector_allocations with
  | none => (none, s)
  | some slots =>
      match delete_pointer_list ptr slots with
      | none => (none, s)
      | some (i, sz, slots1) =>
          (some sz,
           { s with vector_allocations := some slots1
                    stack_allocs := some (s.stack_allocs.getD [] ++ [i]) })

/-- An allocator event, carrying the sizes passed by the caller and the
pointer returned by the inner (OS) allocator as an oracle input. -/
inductive AEvent where
  | alloc (size ret : Nat)
  | allocZeroed (size ret : Nat)
  | dealloc (ptr size : Nat)
  | realloc (ptr oldSize newSize ret : Nat)
deriving Repr, DecidableEq

/-- The counter updates of StatsAlloc.realloc before the table is touched:
reallocations increments, bytes_allocated grows by the positive difference
on a growing realloc, bytes_deallocated grows by the positive difference on
a shrinking one, and bytes_reallocated receives the wrapping difference
new_size.wrapping_sub(old_size) reinterpreted as isize (pattern addition
modulo 2 ^ 64). -/
def realloc_counter_update (s : GState) (oldSize newSize : Nat) : GState :=
  let s1 := { s with reallocations := (s.reallocations + 1) % usizeW }
  let s2 :=
    if oldSize < newSize then
      { s1 with bytes_allocated :=
          (s1.bytes_allocated + (newSize - oldSize)) % usizeW }
    else if newSize < oldSize then
      { s1 with bytes_deallocated :=
          (s1.bytes_deallocated + (oldSize - newSize)) % usizeW }
    else s1
  { s2 with bytes_reallocated :=
      (s2.bytes_reallocated + (newSize + usizeW - oldSize) % usizeW) % usizeW }

/-- Embedding of the four GlobalAlloc entry points of impl GlobalAlloc for
StatsAlloc (stats.rs).  Counter updates are fetch_add, i.e. wrapping
addition modulo 2 ^ 64; realloc adds the wrapping difference
newSize - oldSize reinterpreted as isize to bytes_reallocated, then forgets
the old pointer and records the new one. -/
def step (s : GState) : AEvent → GState
  | .alloc size ret =>
      let s1 := { s with bytes_allocated := (s.bytes_allocated + size) % usizeW }
      let s2 := { s1 with allocations := (s1.allocations + 1) % usizeW }
      allocate_into_vector size ret s2
  | .allocZeroed size ret =>
      let s1 := { s with allocations := (s.allocations + 1) % usizeW }
      let s2 := { s1 with bytes_allocated := (s1.bytes_allocated + size) % usizeW }
      allocate_into_vector size ret s2
  | .dealloc ptr size =>
      let s1 := { s with deallocations := (s.deallocations + 1) % usizeW }
      let s2 := { s1 with bytes_deallocated := (s1.bytes_deallocated + size) % usizeW }
      (delete_pointer ptr s2).2
  | .realloc ptr oldSize newSize ret =>
      let s3 := realloc_counter_update s oldSize newSize
      let s4 := (delete_pointer ptr s3).2
      allocate_into_vector newSize ret s4

/-- Runs a sequence of allocator events from a given state. -/
def runFrom (s : GState) : List AEvent → GState
  | [] => s
  | e :: es => runFrom (step s e) es

/-- Runs a sequence of allocator events from the initial process state. -/
def run (evs : List AEvent) : GState := runFrom GState.init evs

/-! ## stats.rs : the snapshot builder -/

/-- Embedding of struct InfoProgram: the memory map (as the element
sequence of the RAV built by the snapshot) and the two derived totals. -/
structure InfoProgram where
  memory_map : List (Nat × Nat)
  memory_allocated : Nat
  total_memory : Nat
deriving Repr, DecidableEq

/-- The loop body of program_information: skip empty slots and slots with a
null address, otherwise add the size (usize accumulator) and append the
pair. -/
def info_fold (acc : Nat × List (Nat × Nat)) (el : Slot) : Nat × List (Nat × Nat) :=
  match el with
  | none => acc
  | some (p, q) => if p = 0 then acc else ((acc.1 + q) % usizeW, acc.2 ++ [(p, q)])

/-- Embedding of program_information of stats.rs, taking the two global
singletons (with their RAV capacities) as arguments.  The loop walks the
slots only when VECTOR_ALLOCATIONS is Some, but the total_memory
computation unwraps both singletons unconditionally; an unwrap of None
panics, modelled as none. -/
def program_information (va : Option (SpecialVec Slot)) (sa : Option (SpecialVec Nat)) :
    Option InfoProgram :=
  let acc : Nat × List (Nat × Nat) :=
    match va with
    | some v => v.data.foldl info_fold (0, [])
    | none => (0, [])
  match va, sa with
  | some v, some st =>
      some { memory_map := acc.2, memory_allocated := acc.1,
             total_memory := (acc.1 + v.buf.cap + st.buf.cap) % usizeW }
  | _, _ => none

/-! ## Derived notions used by the statements -/

/-- The (address, size) pairs of the non-empty slots with non-zero address,
in slot order: the specification level description of the memory map. -/
def liveEntries (slots : List Slot) : List (Nat × Nat) :=
  slots.filterMap fun el =>
    match el with
    | none => none
    | some (p, q) => if p = 0 then none else some (p, q)

/-- The addresses stored in non-empty slots. -/
def liveAddrs (slots : List Slot) : List Nat :=
  slots.filterMap fun el => el.map Prod.fst

/-- The number of non-empty slots. -/
def countSome (slots : List Slot) : Nat := slots.countP fun el => el.isSome

/-- An event is admissible in a state when it respects the GlobalAlloc
contract as far as the table is concerned: dealloc and realloc are applied
to a currently recorded address. -/
def okEvent (s : GState) : AEvent → Bool
  | .dealloc p _ => (liveAddrs (s.vector_allocations.getD [])).contains p
  | .realloc p _ _ _ => (liveAddrs (s.vector_allocations.getD [])).contains p
  | _ => true

/-- A trace is valid from a state when every event is admissible in the
state it is applied to. -/
def validFrom (s : GState) : List AEvent → Bool
  | [] => true
  | e :: es => okEvent s e && validFrom (step s e) es

/-- The signed sum of (newSize - oldSize) over the realloc events of a
trace. -/
def signedSum : List AEvent → Int
  | [] => 0
  | .realloc _ old new _ :: es => ((new : Int) - (old : Int)) + signedSum es
  | _ :: es => signedSum es

/-- Every size and OS return value of the trace fits in a machine word. -/
def sizesOK : List AEvent → Bool
  | [] => true
  | .alloc size ret :: es => size < usizeW && ret < usizeW && sizesOK es
  | .allocZeroed size ret :: es => size < usizeW && ret < usizeW && sizesOK es
  | .dealloc ptr size :: es => ptr < usizeW && size < usizeW && sizesOK es
  | .realloc ptr old new ret :: es =>
      ptr < usizeW && old < usizeW && new < usizeW && ret < usizeW && sizesOK es

/-! ## Characterisation of the delete_pointer scan -/

/-- When the scan succeeds it has found the first matching non-empty slot:
the returned index holds the target address with the returned size, the new
sequence empties exactly that slot, and no earlier non-empty slot carries
the address. -/
lemma delete_pointer_list_spec_some (a : Nat) :
    ∀ (slots : List Slot) (i sz : Nat) (slots1 : List Slot),
      delete_pointer_list a slots = some (i, sz, slots1) →
      slots[i]? = some (some (a, sz)) ∧ slots1 = slots.set i none ∧
        ∀ j, j < i → ∀ q r, slots[j]? = some (some (q, r)) → q ≠ a
  | [], i, sz, slots1 => by simp [delete_pointer_list]
  | some (q, r) :: rest, i, sz, slots1 => by
      intro h
      simp only [delete_pointer_list] at h
      split at h
      · rename_i hq
        simp only [Option.some.injEq, Prod.mk.injEq] at h
        obtain ⟨rfl, rfl, rfl⟩ := h
        subst hq
        refine ⟨by simp, by simp, ?_⟩
        intro j hj
        omega
      · rename_i hq
        split at h
        · cases h
        · rename_i i2 s2 l hrec
          simp only [Option.some.injEq, Prod.mk.injEq] at h
          obtain ⟨rfl, rfl, rfl⟩ := h
          obtain ⟨h1, h2, h3⟩ := delete_pointer_list_spec_some a rest i2 s2 l hrec
          refine ⟨by simpa using h1, by simp [h2], ?_⟩
          intro j hj q2 r2 hget
          cases j with
          | zero =>
              simp only [List.getElem?_cons_zero, Option.some.injEq] at hget
              obtain ⟨rfl, rfl⟩ := hget.symm
              exact hq
          | succ j2 =>
              exact h3 j2 (by omega) q2 r2 (by simpa using hget)
  | none :: rest, i, sz, slots1 => by
      intro h
      simp only [delete_pointer_list] at h
      split at h
      · cases h
      · rename_i i2 s2 l hrec
        simp only [Option.some.injEq, Prod.mk.injEq] at h
        obtain ⟨rfl, rfl, rfl⟩ := h
        obtain ⟨h1, h2, h3⟩ := delete_pointer_list_spec_some a rest i2 s2 l hrec
        refine ⟨by simpa using h1, by simp [h2], ?_⟩
        intro j hj q2 r2 hget
        cases j with
        | zero => simp at hget
        | succ j2 => exact h3 j2 (by omega) q2 r2 (by simpa using hget)

/-- The scan returns none exactly when no non-empty slot holds the target
address. -/
lemma delete_pointer_list_eq_none (a : Nat) :
    ∀ slots : List Slot,
      delete_pointer_list a slots = none ↔ ∀ sz, some (a, sz) ∉ slots
  | [] => by simp [delete_pointer_list]
  | some (q, r) :: rest => by
      simp only [delete_pointer_list]
      split
      · rename_i hq
        subst hq
        simp only [List.mem_cons]
        constructor
        · intro h; cases h
        · intro h
          exact absurd (Or.inl rfl) (h r)
      · rename_i hq
        constructor
        · intro h sz
          have : delete_pointer_list a rest = none := by
            rcases hrec : delete_pointer_list a rest with _ | ⟨i, s2, l⟩
            · rfl
            · rw [hrec] at h; cases h
          simp only [List.mem_cons, not_or]
          refine ⟨?_, ((delete_pointer_list_eq_none a rest).1 this) sz⟩
          intro hcon
          exact hq (congrArg (fun o => (Option.getD o (0, 0)).1) hcon).symm
        · intro h
          have : delete_pointer_list a rest = none := by
            refine (delete_pointer_list_eq_none a rest).2 ?_
            intro sz hmem
            exact h sz (List.mem_cons_of_mem _ hmem)
          simp [this]
  | none :: rest => by
      simp only [delete_pointer_list]
      constructor
      · intro h sz
        have : delete_pointer_list a rest = none := by
          rcases hrec : delete_pointer_list a rest with _ | ⟨i, s2, l⟩
          · rfl
          · rw [hrec] at h; cases h
        simp only [List.mem_cons, not_or]
        exact ⟨(fun hcon => by cases hcon), ((delete_pointer_list_eq_none a rest).1 this) sz⟩
      · intro h
        have : delete_pointer_list a rest = none := by
          refine (delete_pointer_list_eq_none a rest).2 ?_
          intro sz hmem
          exact h sz (List.mem_cons_of_mem _ hmem)
        simp [this]

/-- Membership in liveAddrs means some non-empty slot records the address. -/
lemma mem_liveAddrs (a : Nat) (slots : List Slot) :
    a ∈ liveAddrs slots ↔ ∃ sz, some (a, sz) ∈ slots := by
  simp only [liveAddrs, List.mem_filterMap]
  constructor
  · rintro ⟨el, hel, hmap⟩
    rcases el with _ | ⟨p, q⟩
    · cases hmap
    · simp only [Option.map_some'] at hmap
      cases hmap
      exact ⟨q, hel⟩
  · rintro ⟨sz, hmem⟩
    exact ⟨some (a, sz), hmem, rfl⟩

/-- delete_pointer leaves every counter of the state unchanged. -/
lemma delete_pointer_counters (p : Nat) (s : GState) :
    (delete_pointer p s).2.allocations = s.allocations ∧
    (delete_pointer p s).2.deallocations = s.deallocations ∧
    (delete_pointer p s).2.reallocations = s.reallocations ∧
    (delete_pointer p s).2.bytes_allocated = s.bytes_allocated ∧
    (delete_pointer p s).2.bytes_deallocated = s.bytes_deallocated ∧
    (delete_pointer p s).2.bytes_reallocated = s.bytes_reallocated := by
  rcases hva : s.vector_allocations with _ | slots
  · simp [delete_pointer, hva]
  · rcases hd : delete_pointer_list p slots with _ | ⟨i, sz, l⟩ <;>
      simp [delete_pointer, hva, hd]

/-- allocate_into_vector leaves every counter of the state unchanged. -/
lemma allocate_into_vector_counters (size ptr : Nat) (s : GState) :
    (allocate_into_vector size ptr s).allocations = s.allocations ∧
    (allocate_into_vector size ptr s).deallocations = s.deallocations ∧
    (allocate_into_vector size ptr s).reallocations = s.reallocations ∧
    (allocate_into_vector size ptr s).bytes_allocated = s.bytes_allocated ∧
    (allocate_into_vector size ptr s).bytes_deallocated = s.bytes_deallocated ∧
    (allocate_into_vector size ptr s).bytes_reallocated = s.bytes_reallocated := by
  rcases hl : (s.stack_allocs.getD []).getLast? with _ | pos <;>
    simp [allocate_into_vector, hl]

/-- The realloc counter update leaves the table, the allocation and
deallocation counters untouched, increments reallocations, and adds the
wrapping signed difference to bytes_reallocated. -/
lemma realloc_counter_update_fields (s : GState) (oldSize newSize : Nat) :
    (realloc_counter_update s oldSize newSize).allocations = s.allocations ∧
    (realloc_counter_update s oldSize newSize).deallocations = s.deallocations ∧
    (realloc_counter_update s oldSize newSize).vector_allocations
        = s.vector_allocations ∧
    (realloc_counter_update s oldSize newSize).stack_allocs = s.stack_allocs ∧
    (realloc_counter_update s oldSize newSize).reallocations
        = (s.reallocations + 1) % usizeW ∧
    (realloc_counter_update s oldSize newSize).bytes_reallocated
        = (s.bytes_reallocated + (newSize + usizeW - oldSize) % usizeW) % usizeW := by
  unfold realloc_counter_update
  dsimp only
  split
  · exact ⟨rfl, rfl, rfl, rfl, rfl, rfl⟩
  · split
    · exact ⟨rfl, rfl, rfl, rfl, rfl, rfl⟩
    · exact ⟨rfl, rfl, rfl, rfl, rfl, rfl⟩

/-- Case analysis of the byte counters across the realloc counter update:
growing adds the difference to bytes_allocated, shrinking adds it to
bytes_deallocated, an equal-size realloc changes neither. -/
lemma realloc_counter_update_bytes (s : GState) (oldSize newSize : Nat) :
    (oldSize < newSize →
       (realloc_counter_update s oldSize newSize).bytes_allocated
           = (s.bytes_allocated + (newSize - oldSize)) % usizeW ∧
       (realloc_counter_update s oldSize newSize).bytes_deallocated
           = s.bytes_deallocated) ∧
    (newSize < oldSize →
       (realloc_counter_update s oldSize newSize).bytes_deallocated
           = (s.bytes_deallocated + (oldSize - newSize)) % usizeW ∧
       (realloc_counter_update s oldSize newSize).bytes_allocated
           = s.bytes_allocated) ∧
    (newSize = oldSize →
       (realloc_counter_update s oldSize newSize).bytes_allocated
           = s.bytes_allocated ∧
       (realloc_counter_update s oldSize newSize).bytes_deallocated
           = s.bytes_deallocated) := by
  refine ⟨?_, ?_, ?_⟩ <;> intro h
  · simp [realloc_counter_update, h]
  · have h2 : ¬ oldSize < newSize := by omega
    simp [realloc_counter_update, h, h2]
  · have h2 : ¬ oldSize < newSize := by omega
    have h3 : ¬ newSize < oldSize := by omega
    simp [realloc_counter_update, h2, h3]

/-! ## Claim C7 -/

/-- C7: the claim says program_information never fails, even in the state
where no allocator event has occurred and both global singletons are still
None.  In that state the source runs total_memory computation through
VECTOR_ALLOCATIONS.as_ref().unwrap() and STACK_ALLOCS.as_ref().unwrap(),
which panic on None; the model returns none there, refuting the claim for
this state and exhibiting the code bug (the loop just above guards the same
singleton with an if-let, so the unconditional unwrap is a slip). -/
theorem program_information_panics_uninitialised :
    program_information none none = none := rfl

/-! ## Claim C10 -/

/-- C10: when no non-empty slot records the address, delete_pointer returns
None and leaves the whole state, in particular the slot sequence and the
free-index stack, exactly as it was. -/
theorem delete_pointer_not_found_atomic (s : GState) (a : Nat)
    (h : a ∉ liveAddrs (s.vector_allocations.getD [])) :
    delete_pointer a s = (none, s) := by
  rcases hva : s.vector_allocations with _ | slots
  · simp [delete_pointer, hva]
  · have hnone : delete_pointer_list a slots = none := by
      refine (delete_pointer_list_eq_none a slots).2 ?_
      intro sz hmem
      refine h ?_
      rw [hva]
      exact (mem_liveAddrs a slots).2 ⟨sz, hmem⟩
    simp [delete_pointer, hva, hnone]

/-- Witness for C10 at a concrete state holding addresses 5 and 9,
queried for the absent address 7. -/
theorem delete_pointer_not_found_atomic_witness :
    delete_pointer 7
        { GState.init with vector_allocations := some [some (5, 7), none, some (9, 1)]
                           stack_allocs := some [1] }
      = (none,
         { GState.init with vector_allocations := some [some (5, 7), none, some (9, 1)]
                            stack_allocs := some [1] }) :=
  delete_pointer_not_found_atomic _ 7 (by decide)

/-! ## Claim C5 -/

/-- C5: the forget operation scans the slots in index order and acts on the
first non-empty slot holding the address: it empties that slot, pushes its
index on the free stack and returns the recorded size; when no slot matches
it returns None; and the dealloc entry point increments deallocations and
bytes_deallocated whether or not the address was found. -/
theorem forget_scan_first_match_and_dealloc_counts (slots : List Slot) (a : Nat) :
    (∀ i sz slots1, delete_pointer_list a slots = some (i, sz, slots1) →
       slots[i]? = some (some (a, sz)) ∧ slots1 = slots.set i none ∧
       (∀ j, j < i → ∀ q r, slots[j]? = some (some (q, r)) → q ≠ a) ∧
       ∀ s : GState, s.vector_allocations = some slots →
         delete_pointer a s =
           (some sz,
            { s with vector_allocations := some slots1
                     stack_allocs := some (s.stack_allocs.getD [] ++ [i]) })) ∧
    (delete_pointer_list a slots = none ↔ ∀ sz, some (a, sz) ∉ slots) ∧
    (∀ s : GState, s.vector_allocations = some slots →
       delete_pointer_list a slots = none → (delete_pointer a s).1 = none) ∧
    ∀ (s : GState) (size : Nat),
      (step s (.dealloc a size)).deallocations = (s.deallocations + 1) % usizeW ∧
      (step s (.dealloc a size)).bytes_deallocated = (s.bytes_deallocated + size) % usizeW := by
  refine ⟨?_, delete_pointer_list_eq_none a slots, ?_, ?_⟩
  · intro i sz slots1 hdel
    obtain ⟨h1, h2, h3⟩ := delete_pointer_list_spec_some a slots i sz slots1 hdel
    refine ⟨h1, h2, h3, ?_⟩
    intro s hva
    simp [delete_pointer, hva, hdel]
  · intro s hva hnone
    simp [delete_pointer, hva, hnone]
  · intro s size
    have hc := delete_pointer_counters a
      { s with deallocations := (s.deallocations + 1) % usizeW
               bytes_deallocated := (s.bytes_deallocated + size) % usizeW }
    exact ⟨by simpa using hc.2.1, by simpa using hc.2.2.2.2.1⟩

/-- Witness for C5: a concrete table where address 9 sits in slot 2 behind
a non-matching slot and an empty slot; forget removes it, returns size 1
and pushes index 2, while a dealloc of the absent address 7 still bumps the
counters. -/
theorem forget_scan_first_match_and_dealloc_counts_witness :
    delete_pointer 9
        { GState.init with vector_allocations := some [none, some (5, 7), some (9, 1)]
                           stack_allocs := some [0] }
      = (some 1,
         { GState.init with vector_allocations := some [none, some (5, 7), none]
                            stack_allocs := some [0, 2] }) ∧
    (step GState.init (.dealloc 7 3)).deallocations = 1 ∧
    (step GState.init (.dealloc 7 3)).bytes_deallocated = 3 := by
  have h := forget_scan_first_match_and_dealloc_counts [none, some (5, 7), some (9, 1)] 9
  have h1 := (h.1 2 1 [none, some (5, 7), none] (by decide)).2.2.2
      { GState.init with vector_allocations := some [none, some (5, 7), some (9, 1)]
                         stack_allocs := some [0] } rfl
  have h4 := (forget_scan_first_match_and_dealloc_counts [] 7).2.2.2 GState.init 3
  exact ⟨h1, h4.1, h4.2⟩

/-! ## Claim C4 -/

/-- C4: after a successful forget of the slot at index i, that index is on
the free-index stack (delete_pointer pushes it); a record performed on the
resulting table pops that index (the stack top) and overwrites slot i
without changing the length of the slot sequence; and record appends a new
slot exactly when the free-index stack is empty (when it is non-empty the
slot sequence keeps its length). -/
theorem forget_pushes_index_and_record_reuses
    (slots : List Slot) (stack : List Nat) (a i sz : Nat) (slots1 : List Slot)
    (hdel : delete_pointer_list a slots = some (i, sz, slots1)) :
    (∀ s : GState, s.vector_allocations = some slots →
       (delete_pointer a s).2.stack_allocs = some (s.stack_allocs.getD [] ++ [i]) ∧
       i ∈ s.stack_allocs.getD [] ++ [i]) ∧
    (∀ (s : GState) (size addr : Nat),
       s.vector_allocations = some slots1 → s.stack_allocs = some (stack ++ [i]) →
       (allocate_into_vector size addr s).vector_allocations
           = some (slots1.set i (some (addr, size))) ∧
       (allocate_into_vector size addr s).stack_allocs = some stack ∧
       (slots1.set i (some (addr, size))).length = slots1.length) ∧
    (∀ (s : GState) (size addr : Nat), s.stack_allocs = some [] →
       (allocate_into_vector size addr s).vector_allocations
           = some (s.vector_allocations.getD [] ++ [some (addr, size)]) ∧
       ((allocate_into_vector size addr s).vector_allocations.getD []).length
           = (s.vector_allocations.getD []).length + 1) ∧
    ∀ (s : GState) (size addr : Nat) (st : List Nat),
      s.stack_allocs = some st → st ≠ [] →
      ((allocate_into_vector size addr s).vector_allocations.getD []).length
          = (s.vector_allocations.getD []).length := by
  refine ⟨?_, ?_, ?_, ?_⟩
  · intro s hva
    refine ⟨?_, by simp⟩
    simp [delete_pointer, hva, hdel]
  · intro s size addr hva hsa
    have hlast : (s.stack_allocs.getD []).getLast? = some i := by
      rw [hsa]
      exact List.getLast?_concat stack
    refine ⟨?_, ?_, List.length_set slots1 i _⟩
    · simp [allocate_into_vector, hlast, hva]
    · simp [allocate_into_vector, hlast, hsa, List.dropLast_concat]
  · intro s size addr hsa
    have hlast : (s.stack_allocs.getD []).getLast? = none := by simp [hsa]
    constructor
    · simp [allocate_into_vector, hlast]
    · simp [allocate_into_vector, hlast]
  · intro s size addr st hsa hne
    have hne2 : s.stack_allocs.getD [] ≠ [] := by simp [hsa, hne]
    rcases hlast : (s.stack_allocs.getD []).getLast? with _ | pos
    · have hs := List.getLast?_isSome.2 hne2
      rw [hlast] at hs
      cases hs
    · simp [allocate_into_vector, hlast, List.length_set]

/-- Witness for C4: forgetting address 5 (slot 0) pushes index 0; the next
record of (200, 8) pops it and overwrites slot 0 without growing the
table. -/
theorem forget_pushes_index_and_record_reuses_witness :
    (delete_pointer 5
        { GState.init with vector_allocations := some [some (5, 7), some (9, 1)]
                           stack_allocs := some [] }).2.stack_allocs = some [0] ∧
    (allocate_into_vector 8 200
        { GState.init with vector_allocations := some [none, some (9, 1)]
                           stack_allocs := some [0] }).vector_allocations
      = some [some (200, 8), some (9, 1)] ∧
    (allocate_into_vector 8 200
        { GState.init with vector_allocations := some [none, some (9, 1)]
                           stack_allocs := some [0] }).stack_allocs = some [] := by
  have h := forget_pushes_index_and_record_reuses [some (5, 7), some (9, 1)] [] 5 0 7
      [none, some (9, 1)] (by decide)
  have ha := h.2.1
      { GState.init with vector_allocations := some [none, some (9, 1)]
                         stack_allocs := some [0] } 8 200 rfl rfl
  exact ⟨(h.1 _ rfl).1, ha.1, ha.2.1⟩

/-! ## Claim C1 -/

lemma liveEntries_cons_none (rest : List Slot) :
    liveEntries (none :: rest) = liveEntries rest := by simp [liveEntries]

lemma liveEntries_cons_zero (q : Nat) (rest : List Slot) :
    liveEntries (some (0, q) :: rest) = liveEntries rest := by simp [liveEntries]

lemma liveEntries_cons_pos (p q : Nat) (rest : List Slot) (hp : p ≠ 0) :
    liveEntries (some (p, q) :: rest) = (p, q) :: liveEntries rest := by
  simp [liveEntries, hp]

/-- The snapshot loop, started from any accumulator, adds the sizes of the
live entries and appends exactly the live entries, provided the size
accumulator never wraps. -/
lemma foldl_info_fold (slots : List Slot) : ∀ (n : Nat) (l : List (Nat × Nat)),
    n + ((liveEntries slots).map Prod.snd).sum < usizeW →
    slots.foldl info_fold (n, l)
      = (n + ((liveEntries slots).map Prod.snd).sum, l ++ liveEntries slots) := by
  induction slots with
  | nil => intro n l h; simp [liveEntries]
  | cons el rest ih =>
      intro n l h
      rcases el with _ | ⟨p, q⟩
      · rw [liveEntries_cons_none] at h ⊢
        rw [List.foldl_cons]
        exact ih n l h
      · by_cases hp : p = 0
        · subst hp
          rw [liveEntries_cons_zero] at h ⊢
          rw [List.foldl_cons]
          have hstep : info_fold (n, l) (some (0, q)) = (n, l) := by simp [info_fold]
          rw [hstep]
          exact ih n l h
        · rw [liveEntries_cons_pos p q rest hp] at h ⊢
          simp only [List.map_cons, List.sum_cons] at h ⊢
          have hnq : (n + q) % usizeW = n + q := Nat.mod_eq_of_lt (by omega)
          rw [List.foldl_cons]
          have hstep : info_fold (n, l) (some (p, q))
              = ((n + q) % usizeW, l ++ [(p, q)]) := by simp [info_fold, hp]
          rw [hstep, hnq]
          have := ih (n + q) (l ++ [(p, q)]) (by omega)
          rw [this]
          refine Prod.ext ?_ ?_
          · show n + q + _ = n + (q + _); omega
          · show l ++ [(p, q)] ++ liveEntries rest = l ++ ((p, q) :: liveEntries rest)
            simp

/-- C1: for any address-table state, the snapshot succeeds and satisfies
memory_allocated equal to the sum of the sizes of its memory_map entries,
the memory_map being exactly the (address, size) pairs of the non-empty
slots with non-zero address, in slot order.  The hypothesis keeps the usize
size accumulator of the source loop from wrapping. -/
theorem snapshot_memory_allocated_eq_sum (v : SpecialVec Slot) (st : SpecialVec Nat)
    (h : ((liveEntries v.data).map Prod.snd).sum < usizeW) :
    ∃ info, program_information (some v) (some st) = some info ∧
      info.memory_allocated = ((liveEntries v.data).map Prod.snd).sum ∧
      info.memory_map = liveEntries v.data := by
  have hf := foldl_info_fold v.data 0 [] (by simpa using h)
  refine ⟨_, rfl, ?_, ?_⟩ <;> simp [program_information, hf]

/-- Witness for C1 on a table holding (5, 7) and (9, 1) beside an empty
slot and a null-address slot. -/
theorem snapshot_memory_allocated_eq_sum_witness :
    ∃ info,
      program_information
          (some ⟨⟨3, 4⟩, [some (5, 7), none, some (0, 4), some (9, 1)]⟩)
          (some ⟨⟨3, 2⟩, [2]⟩) = some info ∧
      info.memory_allocated = 8 ∧ info.memory_map = [(5, 7), (9, 1)] := by
  obtain ⟨info, h1, h2, h3⟩ := snapshot_memory_allocated_eq_sum
      ⟨⟨3, 4⟩, [some (5, 7), none, some (0, 4), some (9, 1)]⟩ ⟨⟨3, 2⟩, [2]⟩ (by decide)
  exact ⟨info, h1, h2.trans (by decide), h3.trans (by decide)⟩

/-! ## Claim C8 : the Stats snapshot type

Embedding of struct Stats of stats.rs.  Every field is a machine word bit
pattern (bytes_reallocated being the pattern of its isize value); the
arithmetic of ops SubAssign compiled for release wraps, i.e. works on the
patterns modulo 2 ^ 64. -/

/-- Embedding of struct Stats: the six counter fields as usize patterns. -/
structure Stats where
  allocations : Nat
  deallocations : Nat
  reallocations : Nat
  bytes_allocated : Nat
  bytes_deallocated : Nat
  bytes_reallocated : Nat
deriving Repr, DecidableEq

/-- Wrapping machine-word subtraction of bit patterns. -/
def wsub (x y : Nat) : Nat := (x + usizeW - y) % usizeW

/-- Wrapping machine-word addition of bit patterns. -/
def wadd (x y : Nat) : Nat := (x + y) % usizeW

/-- Embedding of impl ops Sub and SubAssign for Stats: fieldwise wrapping
subtraction. -/
def Stats.sub (a b : Stats) : Stats :=
  { allocations := wsub a.allocations b.allocations
    deallocations := wsub a.deallocations b.deallocations
    reallocations := wsub a.reallocations b.reallocations
    bytes_allocated := wsub a.bytes_allocated b.bytes_allocated
    bytes_deallocated := wsub a.bytes_deallocated b.bytes_deallocated
    bytes_reallocated := wsub a.bytes_reallocated b.bytes_reallocated }

/-- Modelled from the spec: elementwise addition of Stats values.  The code
has no Add impl for Stats; the spec sentence that subtraction is the
inverse of elementwise addition refers to this operation. -/
def Stats.addW (a b : Stats) : Stats :=
  { allocations := wadd a.allocations b.allocations
    deallocations := wadd a.deallocations b.deallocations
    reallocations := wadd a.reallocations b.reallocations
    bytes_allocated := wadd a.bytes_allocated b.bytes_allocated
    bytes_deallocated := wadd a.bytes_deallocated b.bytes_deallocated
    bytes_reallocated := wadd a.bytes_reallocated b.bytes_reallocated }

/-- A Stats value is well formed when each field is a machine word. -/
def Stats.WF (a : Stats) : Prop :=
  a.allocations < usizeW ∧ a.deallocations < usizeW ∧ a.reallocations < usizeW ∧
    a.bytes_allocated < usizeW ∧ a.bytes_deallocated < usizeW ∧
    a.bytes_reallocated < usizeW

instance (a : Stats) : Decidable a.WF := by unfold Stats.WF; infer_instance

/-- C8: fieldwise machine subtraction of Stats is the inverse of
elementwise addition, (a + b) - b = a, addition commutes, and the
difference of two snapshots is always defined (a well-formed Stats). -/
theorem stats_sub_inverse_of_add (a b : Stats) (ha : a.WF) (hb : b.WF) :
    (a.addW b).sub b = a ∧ a.addW b = b.addW a ∧ (a.sub b).WF := by
  obtain ⟨ha1, ha2, ha3, ha4, ha5, ha6⟩ := ha
  obtain ⟨hb1, hb2, hb3, hb4, hb5, hb6⟩ := hb
  refine ⟨?_, ?_, ?_⟩
  · cases a; cases b
    simp only [Stats.addW, Stats.sub, wadd, wsub, Stats.mk.injEq, usizeW] at *
    omega
  · cases a; cases b
    simp only [Stats.addW, wadd, Stats.mk.injEq, usizeW]
    omega
  · cases a; cases b
    simp only [Stats.sub, Stats.WF, wsub, usizeW] at *
    omega

/-- Witness for C8 at two concrete snapshots. -/
theorem stats_sub_inverse_of_add_witness :
    ((Stats.mk 1 2 3 4 5 6).addW (Stats.mk 7 8 9 10 11 12)).sub
        (Stats.mk 7 8 9 10 11 12) = Stats.mk 1 2 3 4 5 6 ∧
    (Stats.mk 1 2 3 4 5 6).addW (Stats.mk 7 8 9 10 11 12)
        = (Stats.mk 7 8 9 10 11 12).addW (Stats.mk 1 2 3 4 5 6) := by
  have h := stats_sub_inverse_of_add (Stats.mk 1 2 3 4 5 6) (Stats.mk 7 8 9 10 11 12)
      (by decide) (by decide)
  exact ⟨h.1, h.2.1⟩

/-! ## Claim C9 -/

/-- C9: push appends without growth while the vector is not full; when it
is full the capacity grows from 0 to 1 and otherwise doubles, the grown
buffer being the pointer the OS returned; and a null OS return makes the
growth invoke the fatal out-of-memory handler (none), never an error
value. -/
theorem push_growth_and_oom {α : Type} (v : SpecialVec α) (elem : α) (osRet : Nat) :
    (v.data.length = v.buf.cap →
       (osRet = 0 → v.push elem osRet = none) ∧
       (osRet ≠ 0 → v.push elem osRet = some
           { buf := { ptr := osRet, cap := if v.buf.cap = 0 then 1 else 2 * v.buf.cap }
             data := v.data ++ [elem] })) ∧
    (v.data.length ≠ v.buf.cap →
       v.push elem osRet = some { buf := v.buf, data := v.data ++ [elem] }) := by
  constructor
  · intro hfull
    constructor
    · intro h0
      subst h0
      by_cases hc : v.buf.cap = 0 <;> simp [SpecialVec.push, hfull, RawVec.grow, hc]
    · intro hne
      by_cases hc : v.buf.cap = 0 <;> simp [SpecialVec.push, hfull, RawVec.grow, hc, hne]
  · intro hne
    simp [SpecialVec.push, hne]

/-- Witness for C9: a fresh vector grows 0 to 1 on its first push, a full
vector of capacity 2 doubles to 4, a non-full vector keeps its buffer, and
a null OS return on growth is fatal. -/
theorem push_growth_and_oom_witness :
    (SpecialVec.new (α := Nat)).push 5 100 = some ⟨⟨100, 1⟩, [5]⟩ ∧
    (⟨⟨7, 2⟩, [1, 2]⟩ : SpecialVec Nat).push 3 100 = some ⟨⟨100, 4⟩, [1, 2, 3]⟩ ∧
    (⟨⟨7, 4⟩, [1, 2]⟩ : SpecialVec Nat).push 3 100 = some ⟨⟨7, 4⟩, [1, 2, 3]⟩ ∧
    (⟨⟨7, 2⟩, [1, 2]⟩ : SpecialVec Nat).push 3 0 = none := by
  refine ⟨?_, ?_, ?_, ?_⟩
  · exact ((push_growth_and_oom (SpecialVec.new (α := Nat)) 5 100).1 rfl).2 (by decide)
  · exact ((push_growth_and_oom (⟨⟨7, 2⟩, [1, 2]⟩ : SpecialVec Nat) 3 100).1 rfl).2 (by decide)
  · exact (push_growth_and_oom (⟨⟨7, 4⟩, [1, 2]⟩ : SpecialVec Nat) 3 100).2 (by decide)
  · exact ((push_growth_and_oom (⟨⟨7, 2⟩, [1, 2]⟩ : SpecialVec Nat) 3 0).1 rfl).1 rfl

/-! ## Claim C6 -/

/-- Holds when every alloc, alloc_zeroed and realloc event of the trace got
a non-null pointer from the OS allocator and passed a non-zero size. -/
def eventsNonNull : List AEvent → Bool
  | [] => true
  | .alloc size ret :: es => ret != 0 && size != 0 && eventsNonNull es
  | .allocZeroed size ret :: es => ret != 0 && size != 0 && eventsNonNull es
  | .dealloc _ _ :: es => eventsNonNull es
  | .realloc _ _ newSize ret :: es => ret != 0 && newSize != 0 && eventsNonNull es

/-- Every non-empty slot of the state has non-zero address and size. -/
def slotsOK (s : GState) : Prop :=
  ∀ p q, some (p, q) ∈ s.vector_allocations.getD [] → p ≠ 0 ∧ 0 < q

lemma slotsOK_of_eq_va (s t : GState)
    (hva : t.vector_allocations = s.vector_allocations) (h : slotsOK s) : slotsOK t := by
  intro p q hm
  refine h p q ?_
  rwa [hva] at hm

lemma slotsOK_allocate (size ptr : Nat) (s : GState) (hp : ptr ≠ 0) (hs : size ≠ 0)
    (h : slotsOK s) : slotsOK (allocate_into_vector size ptr s) := by
  intro p q hmem
  rcases hl : (s.stack_allocs.getD []).getLast? with _ | pos <;>
    simp only [allocate_into_vector, hl] at hmem
  · rcases List.mem_append.1 hmem with hm | hm
    · exact h p q hm
    · rw [List.mem_singleton, Option.some.injEq, Prod.mk.injEq] at hm
      obtain ⟨rfl, rfl⟩ := hm
      exact ⟨hp, Nat.pos_of_ne_zero hs⟩
  · rcases List.mem_or_eq_of_mem_set hmem with hm | hm
    · exact h p q hm
    · rw [Option.some.injEq, Prod.mk.injEq] at hm
      obtain ⟨rfl, rfl⟩ := hm
      exact ⟨hp, Nat.pos_of_ne_zero hs⟩

lemma slotsOK_delete (a : Nat) (s : GState) (h : slotsOK s) :
    slotsOK ((delete_pointer a s).2) := by
  rcases hva : s.vector_allocations with _ | slots
  · intro p q hmem
    refine h p q ?_
    simp only [delete_pointer, hva] at hmem
    rw [hva]
    exact hmem
  · rcases hd : delete_pointer_list a slots with _ | ⟨i, sz, l⟩
    · intro p q hmem
      refine h p q ?_
      simp only [delete_pointer, hva, hd] at hmem
      rw [hva]
      exact hmem
    · obtain ⟨h1, h2, h3⟩ := delete_pointer_list_spec_some a slots i sz l hd
      intro p q hmem
      simp only [delete_pointer, hva, hd, Option.getD_some] at hmem
      subst h2
      rcases List.mem_or_eq_of_mem_set hmem with hm | hm
      · exact h p q (by simpa [hva] using hm)
      · cases hm

lemma slotsOK_runFrom : ∀ (evs : List AEvent) (s : GState),
    eventsNonNull evs = true → slotsOK s → slotsOK (runFrom s evs)
  | [], s, _, h => h
  | e :: es, s, hn, h => by
      cases e with
      | alloc size ret =>
          simp only [eventsNonNull, Bool.and_eq_true, bne_iff_ne] at hn
          exact slotsOK_runFrom es _ hn.2
            (slotsOK_allocate size ret _ hn.1.1 hn.1.2 h)
      | allocZeroed size ret =>
          simp only [eventsNonNull, Bool.and_eq_true, bne_iff_ne] at hn
          exact slotsOK_runFrom es _ hn.2
            (slotsOK_allocate size ret _ hn.1.1 hn.1.2 h)
      | dealloc ptr size =>
          simp only [eventsNonNull] at hn
          exact slotsOK_runFrom es _ hn (slotsOK_delete ptr _ h)
      | realloc ptr oldSize newSize ret =>
          simp only [eventsNonNull, Bool.and_eq_true, bne_iff_ne] at hn
          refine slotsOK_runFrom es _ hn.2 ?_
          refine slotsOK_allocate newSize ret _ hn.1.1 hn.1.2 ?_
          refine slotsOK_delete ptr _ (slotsOK_of_eq_va s _ ?_ h)
          exact (realloc_counter_update_fields s oldSize newSize).2.2.1

/-- C6 counterexample: the claim that the record step never stores a slot
with address 0 fails on the code.  When the OS allocator signals failure by
returning null, alloc still records (0, size): after the single event
alloc 16 with OS return 0, the table holds the non-empty slot (0, 16). -/
theorem record_null_address_counterexample :
    ¬ ∀ (evs : List AEvent) (p q : Nat),
        some (p, q) ∈ (run evs).vector_allocations.getD [] → p ≠ 0 ∧ 0 < q := by
  intro h
  exact (h [AEvent.alloc 16 0] 0 16 (by decide)).1 rfl

/-- C6 amended: in every state reachable by a trace whose alloc,
alloc_zeroed and realloc events all received a non-null OS pointer and
passed a non-zero size, every slot is either empty or non-empty with
address different from 0 and size greater than 0; record stores exactly the
pair it is given, so a null OS return is the only source of a null-address
slot. -/
theorem slots_nonnull_of_nonnull_events (evs : List AEvent)
    (hn : eventsNonNull evs = true) :
    ∀ p q, some (p, q) ∈ (run evs).vector_allocations.getD [] → p ≠ 0 ∧ 0 < q :=
  slotsOK_runFrom evs GState.init hn
    (fun p q hmem => absurd hmem (by simp [GState.init]))

/-- Witness for the amended C6 on a concrete successful trace. -/
theorem slots_nonnull_of_nonnull_events_witness :
    some ((100 : Nat), (16 : Nat))
        ∈ (run [AEvent.alloc 16 100]).vector_allocations.getD [] ∧
      ((100 : Nat) ≠ 0 ∧ 0 < (16 : Nat)) :=
  ⟨by decide,
   slots_nonnull_of_nonnull_events [AEvent.alloc 16 100] (by decide) 100 16 (by decide)⟩

/-! ## Claim C2 -/

/-- The free-stack invariant of the Address Table: every index on
STACK_ALLOCS refers to an in-bounds empty slot, and no index appears
twice. -/
def stackOK (s : GState) : Prop :=
  (∀ i ∈ s.stack_allocs.getD [], (s.vector_allocations.getD [])[i]? = some none) ∧
    (s.stack_allocs.getD []).Nodup

lemma stackOK_of_eq (s t : GState)
    (hva : t.vector_allocations = s.vector_allocations)
    (hsa : t.stack_allocs = s.stack_allocs) (h : stackOK s) : stackOK t := by
  unfold stackOK at *
  rw [hva, hsa]
  exact h

/-- Recording a pair preserves the free-stack invariant and increases the
number of non-empty slots by exactly one. -/
lemma allocate_count_stack (size ptr : Nat) (s : GState) (h : stackOK s) :
    stackOK (allocate_into_vector size ptr s) ∧
    countSome ((allocate_into_vector size ptr s).vector_allocations.getD [])
      = countSome (s.vector_allocations.getD []) + 1 := by
  obtain ⟨hok, hnd⟩ := h
  rcases hl : (s.stack_allocs.getD []).getLast? with _ | pos
  · have hstack : s.stack_allocs.getD [] = [] := List.getLast?_eq_none_iff.1 hl
    constructor
    · constructor
      · intro i hi
        simp only [allocate_into_vector, hl, Option.getD_some] at hi
        rw [hstack] at hi
        cases hi
      · simp only [allocate_into_vector, hl, Option.getD_some]
        rw [hstack]
        exact List.nodup_nil
    · simp only [allocate_into_vector, hl, Option.getD_some, countSome, List.countP_append]
      simp [List.countP_cons]
  · have hconcat : (s.stack_allocs.getD []).dropLast ++ [pos] = s.stack_allocs.getD [] :=
      List.dropLast_append_getLast? pos hl
    have hposmem : pos ∈ s.stack_allocs.getD [] := List.mem_of_mem_getLast? hl
    have hget : (s.vector_allocations.getD [])[pos]? = some none := hok pos hposmem
    obtain ⟨hlt, hgetE⟩ := List.getElem?_eq_some_iff.1 hget
    have hdisj : pos ∉ (s.stack_allocs.getD []).dropLast := by
      intro hm
      have hnd2 : ((s.stack_allocs.getD []).dropLast ++ [pos]).Nodup := by
        rw [hconcat]; exact hnd
      exact (List.disjoint_of_nodup_append hnd2) hm (by simp)
    refine ⟨⟨?_, ?_⟩, ?_⟩
    · intro i hi
      simp only [allocate_into_vector, hl, Option.getD_some] at hi ⊢
      have himem : i ∈ s.stack_allocs.getD [] :=
        (List.dropLast_sublist (s.stack_allocs.getD [])).mem hi
      have hne : pos ≠ i := by
        intro he
        subst he
        exact hdisj hi
      rw [List.getElem?_set_ne hne]
      exact hok i himem
    · simp only [allocate_into_vector, hl, Option.getD_some]
      exact (List.dropLast_sublist (s.stack_allocs.getD [])).nodup hnd
    · simp only [allocate_into_vector, hl, Option.getD_some, countSome]
      rw [List.countP_set _ _ _ _ hlt, hgetE]
      simp

/-- A successful delete preserves the free-stack invariant and decreases
the number of non-empty slots by exactly one. -/
lemma delete_count_stack (a : Nat) (s : GState) (slots : List Slot) (i sz : Nat)
    (l : List Slot) (hva : s.vector_allocations = some slots)
    (hd : delete_pointer_list a slots = some (i, sz, l)) (h : stackOK s) :
    stackOK ((delete_pointer a s).2) ∧
    countSome slots
      = countSome ((delete_pointer a s).2.vector_allocations.getD []) + 1 := by
  obtain ⟨hok, hnd⟩ := h
  obtain ⟨h1, h2, h3⟩ := delete_pointer_list_spec_some a slots i sz l hd
  obtain ⟨hlt, hgetE⟩ := List.getElem?_eq_some_iff.1 h1
  have hinstack : i ∉ s.stack_allocs.getD [] := by
    intro hm
    have := hok i hm
    rw [hva] at this
    simp only [Option.getD_some] at this
    rw [h1] at this
    cases this
  have hres : (delete_pointer a s).2
      = { s with vector_allocations := some l
                 stack_allocs := some (s.stack_allocs.getD [] ++ [i]) } := by
    simp [delete_pointer, hva, hd]
  refine ⟨⟨?_, ?_⟩, ?_⟩
  · intro j hj
    rw [hres]
    simp only [Option.getD_some]
    rw [hres] at hj
    simp only [Option.getD_some] at hj
    subst h2
    rcases List.mem_append.1 hj with hm | hm
    · have hjget := hok j hm
      rw [hva] at hjget
      simp only [Option.getD_some] at hjget
      have hne : i ≠ j := by
        intro he
        subst he
        rw [h1] at hjget
        cases hjget
      rw [List.getElem?_set_ne hne]
      exact hjget
    · rw [List.mem_singleton] at hm
      subst hm
      exact List.getElem?_set_self hlt
  · rw [hres]
    simp only [Option.getD_some]
    rw [List.nodup_append]
    refine ⟨hnd, List.nodup_singleton i, ?_⟩
    intro x hx hxi
    rw [List.mem_singleton] at hxi
    subst hxi
    exact hinstack hx
  · rw [hres]
    simp only [Option.getD_some]
    subst h2
    have hpos : 0 < countSome slots := by
      rw [countSome, List.countP_pos_iff]
      exact ⟨slots[i], List.getElem_mem hlt, by rw [hgetE]; rfl⟩
    rw [countSome, countSome, List.countP_set _ _ _ _ hlt, hgetE]
    rw [countSome] at hpos
    simp only [Option.isSome_some, Option.isSome_none, Bool.false_eq_true, if_false,
      if_true, reduceIte]
    omega

/-- A recorded address is found by the delete scan. -/
lemma found_of_live (p : Nat) (slots : List Slot) (h : p ∈ liveAddrs slots) :
    ∃ i sz l, delete_pointer_list p slots = some (i, sz, l) := by
  obtain ⟨sz, hmem⟩ := (mem_liveAddrs p slots).1 h
  rcases hd : delete_pointer_list p slots with _ | ⟨i, sz2, l⟩
  · exact absurd hmem ((delete_pointer_list_eq_none p slots).1 hd sz)
  · exact ⟨i, sz2, l, rfl⟩

/-- Core induction for C2: along any contract-valid trace whose length
keeps the two operation counters from wrapping, the free-stack invariant is
preserved and allocations equals deallocations plus the number of
non-empty slots. -/
lemma counters_aux : ∀ (evs : List AEvent) (s : GState),
    validFrom s evs = true → stackOK s →
    s.allocations = s.deallocations + countSome (s.vector_allocations.getD []) →
    s.allocations + evs.length < usizeW →
    s.deallocations + evs.length < usizeW →
    stackOK (runFrom s evs) ∧
    (runFrom s evs).allocations
      = (runFrom s evs).deallocations
          + countSome ((runFrom s evs).vector_allocations.getD [])
  | [], s, _, hst, hinv, _, _ => ⟨hst, hinv⟩
  | e :: es, s, hv, hst, hinv, hba, hbd => by
      rw [validFrom, Bool.and_eq_true] at hv
      obtain ⟨hok, hv2⟩ := hv
      rw [List.length_cons] at hba hbd
      cases e with
      | alloc size ret =>
          have hac := allocate_count_stack size ret
            { s with bytes_allocated := (s.bytes_allocated + size) % usizeW
                     allocations := (s.allocations + 1) % usizeW }
            (stackOK_of_eq s _ rfl rfl hst)
          have hca := allocate_into_vector_counters size ret
            { s with bytes_allocated := (s.bytes_allocated + size) % usizeW
                     allocations := (s.allocations + 1) % usizeW }
          refine counters_aux es (step s (.alloc size ret)) hv2 hac.1 ?_ ?_ ?_
          · show (allocate_into_vector size ret _).allocations
                = (allocate_into_vector size ret _).deallocations
                    + countSome ((allocate_into_vector size ret _).vector_allocations.getD [])
            rw [hca.1, hca.2.1, hac.2]
            dsimp only
            have hmod : (s.allocations + 1) % usizeW = s.allocations + 1 :=
              Nat.mod_eq_of_lt (by omega)
            omega
          · show (allocate_into_vector size ret _).allocations + es.length < usizeW
            rw [hca.1]
            dsimp only
            have hmod : (s.allocations + 1) % usizeW = s.allocations + 1 :=
              Nat.mod_eq_of_lt (by omega)
            omega
          · show (allocate_into_vector size ret _).deallocations + es.length < usizeW
            rw [hca.2.1]
            dsimp only
            omega
      | allocZeroed size ret =>
          have hac := allocate_count_stack size ret
            { s with allocations := (s.allocations + 1) % usizeW
                     bytes_allocated := (s.bytes_allocated + size) % usizeW }
            (stackOK_of_eq s _ rfl rfl hst)
          have hca := allocate_into_vector_counters size ret
            { s with allocations := (s.allocations + 1) % usizeW
                     bytes_allocated := (s.bytes_allocated + size) % usizeW }
          refine counters_aux es (step s (.allocZeroed size ret)) hv2 hac.1 ?_ ?_ ?_
          · show (allocate_into_vector size ret _).allocations
                = (allocate_into_vector size ret _).deallocations
                    + countSome ((allocate_into_vector size ret _).vector_allocations.getD [])
            rw [hca.1, hca.2.1, hac.2]
            dsimp only
            have hmod : (s.allocations + 1) % usizeW = s.allocations + 1 :=
              Nat.mod_eq_of_lt (by omega)
            omega
          · show (allocate_into_vector size ret _).allocations + es.length < usizeW
            rw [hca.1]
            dsimp only
            have hmod : (s.allocations + 1) % usizeW = s.allocations + 1 :=
              Nat.mod_eq_of_lt (by omega)
            omega
          · show (allocate_into_vector size ret _).deallocations + es.length < usizeW
            rw [hca.2.1]
            dsimp only
            omega
      | dealloc ptr size =>
          simp only [okEvent] at hok
          have hmem : ptr ∈ liveAddrs (s.vector_allocations.getD []) :=
            List.mem_of_elem_eq_true hok
          rcases hva : s.vector_allocations with _ | slots
          · rw [hva] at hmem
            simp [liveAddrs] at hmem
          · rw [hva] at hmem
            simp only [Option.getD_some] at hmem
            obtain ⟨i, sz, l, hd⟩ := found_of_live ptr slots hmem
            have hdc := delete_count_stack ptr
              { s with deallocations := (s.deallocations + 1) % usizeW
                       bytes_deallocated := (s.bytes_deallocated + size) % usizeW }
              slots i sz l hva hd (stackOK_of_eq s _ rfl rfl hst)
            have hdcnt := delete_pointer_counters ptr
              { s with deallocations := (s.deallocations + 1) % usizeW
                       bytes_deallocated := (s.bytes_deallocated + size) % usizeW }
            refine counters_aux es (step s (.dealloc ptr size)) hv2 hdc.1 ?_ ?_ ?_
            · show (delete_pointer ptr _).2.allocations
                  = (delete_pointer ptr _).2.deallocations
                      + countSome ((delete_pointer ptr _).2.vector_allocations.getD [])
              rw [hdcnt.1, hdcnt.2.1]
              dsimp only
              have hcount := hdc.2
              rw [hva] at hinv
              simp only [Option.getD_some] at hinv
              have hmod : (s.deallocations + 1) % usizeW = s.deallocations + 1 :=
                Nat.mod_eq_of_lt (by omega)
              omega
            · show (delete_pointer ptr _).2.allocations + es.length < usizeW
              rw [hdcnt.1]
              dsimp only
              omega
            · show (delete_pointer ptr _).2.deallocations + es.length < usizeW
              rw [hdcnt.2.1]
              dsimp only
              have hmod : (s.deallocations + 1) % usizeW = s.deallocations + 1 :=
                Nat.mod_eq_of_lt (by omega)
              omega
      | realloc ptr oldSize newSize ret =>
          simp only [okEvent] at hok
          have hmem : ptr ∈ liveAddrs (s.vector_allocations.getD []) :=
            List.mem_of_elem_eq_true hok
          rcases hva : s.vector_allocations with _ | slots
          · rw [hva] at hmem
            simp [liveAddrs] at hmem
          · rw [hva] at hmem
            simp only [Option.getD_some] at hmem
            obtain ⟨i, sz, l, hd⟩ := found_of_live ptr slots hmem
            have hf := realloc_counter_update_fields s oldSize newSize
            have hdc := delete_count_stack ptr (realloc_counter_update s oldSize newSize)
              slots i sz l (by rw [hf.2.2.1, hva]) hd
              (stackOK_of_eq s _ hf.2.2.1 hf.2.2.2.1 hst)
            have hdcnt := delete_pointer_counters ptr
              (realloc_counter_update s oldSize newSize)
            have hac := allocate_count_stack newSize ret
              (delete_pointer ptr (realloc_counter_update s oldSize newSize)).2 hdc.1
            have hacnt := allocate_into_vector_counters newSize ret
              (delete_pointer ptr (realloc_counter_update s oldSize newSize)).2
            refine counters_aux es (step s (.realloc ptr oldSize newSize ret)) hv2
              hac.1 ?_ ?_ ?_
            · show (allocate_into_vector newSize ret _).allocations
                  = (allocate_into_vector newSize ret _).deallocations
                      + countSome
                          ((allocate_into_vector newSize ret _).vector_allocations.getD [])
              rw [hacnt.1, hacnt.2.1, hac.2, hdcnt.1, hdcnt.2.1, hf.1, hf.2.1]
              have hcount := hdc.2
              rw [hva] at hinv
              simp only [Option.getD_some] at hinv
              omega
            · show (allocate_into_vector newSize ret _).allocations + es.length < usizeW
              rw [hacnt.1, hdcnt.1, hf.1]
              omega
            · show (allocate_into_vector newSize ret _).deallocations + es.length < usizeW
              rw [hacnt.2.1, hdcnt.2.1, hf.2.1]
              omega

/-- C2: along every contract-valid event sequence from the initial state
(dealloc and realloc applied to recorded addresses, as the GlobalAlloc
contract requires) short enough that the usize operation counters cannot
wrap, the counter difference allocations - deallocations equals the number
of non-empty slots of the Address Table, stated without truncated
subtraction as allocations = deallocations + count. -/
theorem allocations_sub_deallocations_eq_live_count (evs : List AEvent)
    (hv : validFrom GState.init evs = true) (hlen : evs.length < usizeW) :
    (run evs).allocations
      = (run evs).deallocations
          + countSome ((run evs).vector_allocations.getD []) :=
  (counters_aux evs GState.init hv
    ⟨fun i hi => absurd hi (by simp [GState.init]), by simp [GState.init]⟩
    (by simp [GState.init, countSome])
    (by simpa [GState.init] using hlen)
    (by simpa [GState.init] using hlen)).2

/-- Witness for C2: two allocations and one deallocation leave counters
2 and 1 and a single live slot. -/
theorem allocations_sub_deallocations_eq_live_count_witness :
    (run [AEvent.alloc 16 100, AEvent.alloc 8 200, AEvent.dealloc 100 16]).allocations
      = (run [AEvent.alloc 16 100, AEvent.alloc 8 200,
              AEvent.dealloc 100 16]).deallocations
          + countSome ((run [AEvent.alloc 16 100, AEvent.alloc 8 200,
              AEvent.dealloc 100 16]).vector_allocations.getD []) :=
  allocations_sub_deallocations_eq_live_count
    [AEvent.alloc 16 100, AEvent.alloc 8 200, AEvent.dealloc 100 16]
    (by decide) (by decide)

/-! ## Claim C3 -/

/-- The bytes_reallocated pattern after a step: unchanged except by
realloc, which adds the wrapping difference of the sizes. -/
lemma step_bytes_reallocated (s : GState) (e : AEvent) :
    (step s e).bytes_reallocated
      = match e with
        | .realloc _ oldSize newSize _ =>
            (s.bytes_reallocated + (newSize + usizeW - oldSize) % usizeW) % usizeW
        | _ => s.bytes_reallocated := by
  cases e with
  | alloc size ret =>
      exact (allocate_into_vector_counters size ret
        { s with bytes_allocated := (s.bytes_allocated + size) % usizeW
                 allocations := (s.allocations + 1) % usizeW }).2.2.2.2.2
  | allocZeroed size ret =>
      exact (allocate_into_vector_counters size ret
        { s with allocations := (s.allocations + 1) % usizeW
                 bytes_allocated := (s.bytes_allocated + size) % usizeW }).2.2.2.2.2
  | dealloc ptr size =>
      exact (delete_pointer_counters ptr
        { s with deallocations := (s.deallocations + 1) % usizeW
                 bytes_deallocated := (s.bytes_deallocated + size) % usizeW }).2.2.2.2.2
  | realloc ptr oldSize newSize ret =>
      have h1 := (allocate_into_vector_counters newSize ret
        (delete_pointer ptr (realloc_counter_update s oldSize newSize)).2).2.2.2.2.2
      have h2 := (delete_pointer_counters ptr
        (realloc_counter_update s oldSize newSize)).2.2.2.2.2
      have h3 := (realloc_counter_update_fields s oldSize newSize).2.2.2.2.2
      exact h1.trans (h2.trans h3)

/-- The byte counters of a realloc step equal those of the counter phase:
the table operations do not touch them. -/
lemma step_realloc_byte_fields (s : GState) (p oldSize newSize ret : Nat) :
    (step s (.realloc p oldSize newSize ret)).bytes_allocated
        = (realloc_counter_update s oldSize newSize).bytes_allocated ∧
    (step s (.realloc p oldSize newSize ret)).bytes_deallocated
        = (realloc_counter_update s oldSize newSize).bytes_deallocated := by
  have h1 := allocate_into_vector_counters newSize ret
    (delete_pointer p (realloc_counter_update s oldSize newSize)).2
  have h2 := delete_pointer_counters p (realloc_counter_update s oldSize newSize)
  exact ⟨h1.2.2.2.1.trans h2.2.2.2.1, h1.2.2.2.2.1.trans h2.2.2.2.2.1⟩

/-- Along any trace of machine-word events, the bytes_reallocated pattern
is congruent to the starting pattern plus the signed sum of the realloc
size differences. -/
lemma br_runFrom : ∀ (evs : List AEvent) (s : GState), sizesOK evs = true →
    s.bytes_reallocated < usizeW →
    ((runFrom s evs).bytes_reallocated : Int)
      = ((s.bytes_reallocated : Int) + signedSum evs) % (usizeW : Int)
  | [], s, _, hbr => by
      show ((s.bytes_reallocated : Int))
          = ((s.bytes_reallocated : Int) + signedSum []) % (usizeW : Int)
      rw [show signedSum [] = 0 from rfl, add_zero]
      exact (Int.emod_eq_of_lt (Int.ofNat_nonneg _) (by exact_mod_cast hbr)).symm
  | e :: es, s, hsz, hbr => by
      have hbrst := step_bytes_reallocated s e
      cases e with
      | alloc size ret =>
          simp only [sizesOK, Bool.and_eq_true, decide_eq_true_eq] at hsz
          have ih := br_runFrom es (step s (.alloc size ret)) hsz.2
            (by rw [hbrst]; exact hbr)
          show ((runFrom (step s (.alloc size ret)) es).bytes_reallocated : Int) = _
          rw [ih, hbrst, show signedSum (.alloc size ret :: es) = signedSum es from rfl]
      | allocZeroed size ret =>
          simp only [sizesOK, Bool.and_eq_true, decide_eq_true_eq] at hsz
          have ih := br_runFrom es (step s (.allocZeroed size ret)) hsz.2
            (by rw [hbrst]; exact hbr)
          show ((runFrom (step s (.allocZeroed size ret)) es).bytes_reallocated : Int) = _
          rw [ih, hbrst,
            show signedSum (.allocZeroed size ret :: es) = signedSum es from rfl]
      | dealloc ptr size =>
          simp only [sizesOK, Bool.and_eq_true, decide_eq_true_eq] at hsz
          have ih := br_runFrom es (step s (.dealloc ptr size)) hsz.2
            (by rw [hbrst]; exact hbr)
          show ((runFrom (step s (.dealloc ptr size)) es).bytes_reallocated : Int) = _
          rw [ih, hbrst, show signedSum (.dealloc ptr size :: es) = signedSum es from rfl]
      | realloc ptr oldSize newSize ret =>
          simp only [sizesOK, Bool.and_eq_true, decide_eq_true_eq] at hsz
          obtain ⟨⟨⟨⟨hptr, hold⟩, hnew⟩, hret⟩, hrest⟩ := hsz
          have hWpos : 0 < usizeW := by norm_num [usizeW]
          have ih := br_runFrom es (step s (.realloc ptr oldSize newSize ret)) hrest
            (by rw [hbrst]; exact Nat.mod_lt _ hWpos)
          show ((runFrom (step s (.realloc ptr oldSize newSize ret)) es).bytes_reallocated
              : Int) = _
          rw [ih, hbrst,
            show signedSum (.realloc ptr oldSize newSize ret :: es)
                = ((newSize : Int) - (oldSize : Int)) + signedSum es from rfl]
          have hle : oldSize ≤ newSize + usizeW := by omega
          have hW : (usizeW : Int) = 18446744073709551616 := by norm_num [usizeW]
          push_cast [Nat.cast_sub hle]
          rw [hW]
          omega

/-- C3: a realloc event with sizes oldSize and newSize adds the positive
difference to bytes_allocated when growing, to bytes_deallocated when
shrinking, changes neither byte counter when the size is unchanged, and
always adds the signed difference to the bytes_reallocated isize pattern
(modulo the word size); consequently after any event sequence whose signed
total fits in isize, the value of bytes_reallocated equals the signed sum
of (newSize - oldSize) over its realloc events. -/
theorem realloc_byte_accounting :
    (∀ (s : GState) (p oldSize newSize ret : Nat), oldSize < usizeW →
       (oldSize < newSize →
          (step s (.realloc p oldSize newSize ret)).bytes_allocated
              = (s.bytes_allocated + (newSize - oldSize)) % usizeW ∧
          (step s (.realloc p oldSize newSize ret)).bytes_deallocated
              = s.bytes_deallocated) ∧
       (newSize < oldSize →
          (step s (.realloc p oldSize newSize ret)).bytes_deallocated
              = (s.bytes_deallocated + (oldSize - newSize)) % usizeW ∧
          (step s (.realloc p oldSize newSize ret)).bytes_allocated
              = s.bytes_allocated) ∧
       (newSize = oldSize →
          (step s (.realloc p oldSize newSize ret)).bytes_allocated
              = s.bytes_allocated ∧
          (step s (.realloc p oldSize newSize ret)).bytes_deallocated
              = s.bytes_deallocated) ∧
       ((step s (.realloc p oldSize newSize ret)).bytes_reallocated : Int)
           = ((s.bytes_reallocated : Int) + ((newSize : Int) - (oldSize : Int)))
               % (usizeW : Int)) ∧
    ∀ evs : List AEvent, sizesOK evs = true →
      -(2 ^ 63 : Int) ≤ signedSum evs → signedSum evs < 2 ^ 63 →
      isizeVal (run evs).bytes_reallocated = signedSum evs := by
  constructor
  · intro s p oldSize newSize ret hold
    have hb := step_realloc_byte_fields s p oldSize newSize ret
    have hc := realloc_counter_update_bytes s oldSize newSize
    refine ⟨?_, ?_, ?_, ?_⟩
    · intro hlt
      exact ⟨hb.1.trans (hc.1 hlt).1, hb.2.trans (hc.1 hlt).2⟩
    · intro hlt
      exact ⟨hb.2.trans (hc.2.1 hlt).1, hb.1.trans (hc.2.1 hlt).2⟩
    · intro heq
      exact ⟨hb.1.trans (hc.2.2 heq).1, hb.2.trans (hc.2.2 heq).2⟩
    · rw [step_bytes_reallocated s (.realloc p oldSize newSize ret)]
      have hle : oldSize ≤ newSize + usizeW := by omega
      have hW : (usizeW : Int) = 18446744073709551616 := by norm_num [usizeW]
      push_cast [Nat.cast_sub hle]
      rw [hW]
      omega
  · intro evs hsz hlo hhi
    have hbr0 : GState.init.bytes_reallocated < usizeW := by norm_num [GState.init, usizeW]
    have hrun := br_runFrom evs GState.init hsz hbr0
    rw [show GState.init.bytes_reallocated = 0 from rfl] at hrun
    have hW : (usizeW : Int) = 18446744073709551616 := by norm_num [usizeW]
    rw [hW] at hrun
    push_cast at hrun
    show isizeVal (runFrom GState.init evs).bytes_reallocated = signedSum evs
    unfold isizeVal
    rw [hW]
    split <;> omega

/-- Witness for C3: a growing realloc from 16 to 48 adds 32 bytes to
bytes_allocated, and a single shrinking realloc from 64 to 16 leaves
bytes_reallocated representing -48. -/
theorem realloc_byte_accounting_witness :
    (step GState.init (.realloc 100 16 48 200)).bytes_allocated = 32 ∧
    (step GState.init (.realloc 100 16 48 200)).bytes_deallocated = 0 ∧
    isizeVal (run [AEvent.realloc 100 64 16 200]).bytes_reallocated = -48 := by
  have h1 := (realloc_byte_accounting.1 GState.init 100 16 48 200 (by decide)).1
    (by decide)
  have h2 := realloc_byte_accounting.2 [AEvent.realloc 100 64 16 200] (by decide)
    (by decide) (by decide)
  exact ⟨h1.1.trans (by decide), h1.2.trans rfl, h2.trans (by decide)⟩

end StatsAllocMap
